import Mathlib

/-!
Shallow embedding of src/tsfc/tsfc_to_loopy.py (repository inducer/tsfc).

The file models the gem expression IR, the loopy/pymbolic output IR and the
lowering pass of tsfc_to_loopy.py, and proves properties about them.

Modelling conventions:
- Python object identity of gem nodes is modelled by a stable integer id
  carried on every node (the arena scheme of the design notes); all
  identity-keyed dictionaries of the conversion context become association
  lists keyed by that id.
- gem Index objects carry a unique serial (count); identity comparison of
  indices is comparison of that serial.
- gem precomputes the free_indices attribute of every node at construction
  time; the embedding stores that attribute as a field (fids) of the node.
- Recursive traversals are written with an explicit fuel argument so that
  every definition is a structurally recursive, executable function; fuel
  exhaustion is the distinguished error outOfFuel, which the source program
  never produces.
- Machine floats in literal arrays are opaque payloads for this pass; they
  are modelled as integers (the lowering never computes with them).
-/

/-- Errors of the lowering run.  Each constructor corresponds to a Python
exception class raised by the source (outOfFuel excepted, see above). -/
inductive Err where
  | outOfFuel
  | notImplementedError (msg : String)
  | assertionError
  | attributeError (msg : String)
  | valueError (msg : String)
  deriving DecidableEq, Repr

/-- A constant tensor payload: a numpy array with a shape and flat data. -/
structure GArray where
  shape : List Nat
  data : List Int
  deriving DecidableEq, Repr

/-- The scalar value node.array[()] of a rank-0 array. -/
def GArray.scalarValue (a : GArray) : Int := a.data.headD 0

mutual

/-- A gem expression node: integer identity, the precomputed free_indices
attribute, and the structural payload. -/
inductive Gem where
  | mk (nid : Nat) (fids : List GIndex) (core : GemCore)

/-- The structural payload of a gem node (gem.gem node classes). -/
inductive GemCore where
  | literal (array : GArray)
  | var (name : String) (shape : List (Option Nat))
  | indexed (base : Gem) (multiindex : List GIndex)
  | flexiblyIndexed (base : Gem) (dim2idxs : List (Int × List (GIndex × Int)))
  | sum (children : List Gem)
  | product (children : List Gem)
  | division (num den : Gem)
  | power (base exp : Gem)
  | mathFunction (name : String) (children : List Gem)
  | minValue (children : List Gem)
  | maxValue (children : List Gem)
  | comparison (op : String) (left right : Gem)
  | indexSum (body : Gem) (multiindex : List GIndex)
  | identity (dim : Nat)
  | zero (shape : List Nat)

/-- A gem index node: a loop index (name, unique serial count, extent), an
index-valued expression, or an integer constant. -/
inductive GIndex where
  | index (iname : Option String) (count : Nat) (extent : Nat)
  | varIndex (expr : Gem)
  | intConst (n : Int)

end

def Gem.nid : Gem → Nat
  | .mk n _ _ => n

def Gem.fids : Gem → List GIndex
  | .mk _ f _ => f

def Gem.core : Gem → GemCore
  | .mk _ _ c => c

/-- Identity comparison of gem index objects (Python == on gem Index objects
is object identity, captured by the unique serial; integer constants compare
by value).  VariableIndex nodes are never compared on the embedded paths. -/
def GIndex.same : GIndex → GIndex → Bool
  | .index _ c1 _, .index _ c2 _ => c1 == c2
  | .intConst a, .intConst b => a == b
  | _, _ => false

/-- The pymbolic / loopy scalar expression IR produced by the lowering. -/
inductive PExpr where
  | var (name : String)
  | subscript (agg : PExpr) (indices : List PExpr)
  | lit (v : Int)
  | sum (children : List PExpr)
  | product (children : List PExpr)
  | quotient (num den : PExpr)
  | power (base exp : PExpr)
  | call (fn : PExpr) (args : List PExpr)
  | minOp (children : List PExpr)
  | maxOp (children : List PExpr)
  | comparison (left : PExpr) (op : String) (right : PExpr)
  | reduction (op : String) (inames : List String) (body : PExpr)

/-- Modelled from the spec: the Name Allocator (pytools.UniqueNameGenerator,
an external dependency not part of this repository).  Contract (section 4.1):
given a preferred base string it returns a fresh identifier never returned
before in this run, deterministically derived from the base by suffix
disambiguation.  The model returns the base itself when it is still free and
otherwise appends an underscore suffix long enough to be fresh. -/
def maxNameLen (used : List String) : Nat :=
  used.foldr (fun s m => max s.length m) 0

def uniqueName (used : List String) (base : String) : String :=
  if base ∈ used then base ++ String.mk (List.replicate (maxNameLen used + 1) '_')
  else base

/-- The mutable conversion context of a single lowering run
(ConversionContext in the source), with dictionaries as association lists
(keys: node ids for gem nodes, the index serial for gem indices). -/
structure Ctx where
  expr_use_count : List (Nat × Nat)
  used_names : List String
  index_to_iname_and_length : List (Nat × String × Nat)
  var_to_name_and_shape : List (Nat × String × List (Option Nat))
  literal_to_name_and_array : List (Nat × String × GArray)
  node_to_var_name : List (Nat × String)
  node_to_inames : List (Nat × List GIndex)
  assignments : List (String × List String × PExpr)
  subst_rules : List (String × List String × PExpr)
  cse_names : List String

def Ctx.init (uc : List (Nat × Nat)) : Ctx :=
  { expr_use_count := uc, used_names := [], index_to_iname_and_length := [],
    var_to_name_and_shape := [], literal_to_name_and_array := [],
    node_to_var_name := [], node_to_inames := [],
    assignments := [], subst_rules := [], cse_names := [] }

/-- self.name_gen(base): draw a fresh name and record it as used. -/
def Ctx.name_gen (ctx : Ctx) (base : String) : String × Ctx :=
  let n := uniqueName ctx.used_names base
  (n, { ctx with used_names := n :: ctx.used_names })

/-- ConversionContext.variable_to_name: get-or-create with shape
consistency assertion on re-sight. -/
def Ctx.variable_to_name (ctx : Ctx) (nid : Nat) (vname : String)
    (shape : List (Option Nat)) : Except Err (String × Ctx) :=
  match ctx.var_to_name_and_shape.lookup nid with
  | some (n, sh) => if shape = sh then .ok (n, ctx) else .error .assertionError
  | none =>
      let p := ctx.name_gen vname
      .ok (p.1, { p.2 with
        var_to_name_and_shape := p.2.var_to_name_and_shape ++ [(nid, p.1, shape)] })

/-- ConversionContext.literal_to_name: get-or-create keyed by node identity
with np.array_equal consistency assertion on re-sight. -/
def Ctx.literal_to_name (ctx : Ctx) (nid : Nat) (array : GArray) :
    Except Err (String × Ctx) :=
  match ctx.literal_to_name_and_array.lookup nid with
  | some (n, arr) => if GArray.shape array = arr.shape ∧ GArray.data array = arr.data
      then .ok (n, ctx) else .error .assertionError
  | none =>
      let p := ctx.name_gen "cnst"
      .ok (p.1, { p.2 with
        literal_to_name_and_array := p.2.literal_to_name_and_array ++ [(nid, p.1, array)] })

/-- ConversionContext.index_to_iname: get-or-create keyed by the index
serial, with extent consistency assertion on re-sight.  Only gem Index
objects ever reach this table in the source. -/
def Ctx.index_to_iname (ctx : Ctx) (idx : GIndex) : Except Err (String × Ctx) :=
  match idx with
  | .index inm count extent =>
      match ctx.index_to_iname_and_length.lookup count with
      | some (iname, len) =>
          if extent = len then .ok (iname, ctx) else .error .assertionError
      | none =>
          let base := match inm with
            | none => "i" ++ toString count
            | some nm => nm
          let p := ctx.name_gen base
          .ok (p.1, { p.2 with
            index_to_iname_and_length :=
              p.2.index_to_iname_and_length ++ [(count, p.1, extent)] })
  | _ => .error (.attributeError "only gem Index objects carry name and count")

/-- tuple(ctx.index_to_iname(i) for i in is): sequential conversion of a
list of indices to loop variable names. -/
def inamesList : List GIndex → Ctx → Except Err (List String × Ctx)
  | [], ctx => .ok ([], ctx)
  | i :: rest, ctx => do
      let (n, ctx1) ← ctx.index_to_iname i
      let (ns, ctx2) ← inamesList rest ctx1
      .ok (n :: ns, ctx2)

/-- ConversionContext._is_cse_eligible, mirroring the branch structure of
the source (the trailing expression after the returns is dead code). -/
def is_cse_eligible (node : Gem) : Bool :=
  if !(match node.core with
        | .literal arr => decide (arr.shape = [])
        | _ => false) then
    match node.core with
    | .flexiblyIndexed _ _ => false
    | .indexed _ _ => false
    | _ => true
  else false

def assocGetD (m : List (Nat × Nat)) (k : Nat) : Nat :=
  (m.lookup k).getD 0

/-- dict[k] = v keeping the position of an existing key (Python dict update
semantics). -/
def assocSet : List (Nat × Nat) → Nat → Nat → List (Nat × Nat)
  | [], k, v => [(k, v)]
  | (k', v') :: rest, k, v =>
      if k' = k then (k, v) :: rest else (k', v') :: assocSet rest k v

def assocBump (m : List (Nat × Nat)) (k : Nat) : List (Nat × Nat) :=
  assocSet m k (assocGetD m k + 1)

/-- node.children of a gem node (gem stores the child tuple per class). -/
def Gem.children (g : Gem) : List Gem :=
  match g.core with
  | .literal _ => []
  | .var _ _ => []
  | .identity _ => []
  | .zero _ => []
  | .indexed b _ => [b]
  | .flexiblyIndexed b _ => [b]
  | .sum cs => cs
  | .product cs => cs
  | .mathFunction _ cs => cs
  | .minValue cs => cs
  | .maxValue cs => cs
  | .division a b => [a, b]
  | .power a b => [a, b]
  | .comparison _ a b => [a, b]
  | .indexSum b _ => [b]

/-- The shape attribute of a gem node, where defined (Variable shapes may
contain indefinite None dimensions). -/
def Gem.shapeAttr (g : Gem) : Option (List (Option Nat)) :=
  match g.core with
  | .var _ sh => some sh
  | .literal arr => some (arr.shape.map some)
  | .zero sh => some (sh.map some)
  | .identity d => some [some d, some d]
  | _ => none

/-- Pymbolic operator overloading for +: zero operands are absorbed and
integer constants fold; otherwise a two-term Sum is built (pymbolic is an
external dependency; this models its arithmetic on the expressions the
lowering produces). -/
def pAdd (a b : PExpr) : PExpr :=
  match a, b with
  | .lit x, .lit y => .lit (x + y)
  | .lit 0, _ => b
  | _, .lit 0 => a
  | _, _ => .sum [a, b]

/-- Pymbolic operator overloading for expr * int. -/
def pMul (a : PExpr) (s : Int) : PExpr :=
  match a with
  | .lit v => .lit (v * s)
  | _ => if s = 0 then .lit 0 else if s = 1 then a else .product [a, .lit s]

/-- index_aggregate_to_name: resolve an Indexed / FlexiblyIndexed base to a
buffer name.  gem Variable goes through the variable table; gem Constant
through the literal table (Zero and Identity are Constants but carry no
array attribute, hence the attribute error); other bases are unsupported. -/
def index_aggregate_to_name (c : Gem) (ctx : Ctx) : Except Err (String × Ctx) :=
  match c.core with
  | .var nm sh => ctx.variable_to_name c.nid nm sh
  | .literal arr => ctx.literal_to_name c.nid arr
  | .zero _ => .error (.attributeError "gem Zero has no array attribute")
  | .identity _ => .error (.attributeError "gem Identity has no array attribute")
  | _ => .error (.notImplementedError "indexing into this node type")

mutual

/-- ConversionContext.rec_gem: the memoizing CSE entry point of expression
lowering.  The unused parent parameter of the source is dropped. -/
def rec_gem : Nat → Gem → Ctx → Except Err (PExpr × Ctx)
  | 0, _, _ => .error .outOfFuel
  | fuel+1, node, ctx =>
      if 1 < assocGetD ctx.expr_use_count node.nid ∧ is_cse_eligible node = true then
        match ctx.node_to_var_name.lookup node.nid, ctx.node_to_inames.lookup node.nid with
        | some var_name, some fis =>
            -- memo hit: reference the recorded temporary
            cse_reference fuel var_name fis ctx
        | _, _ => do
            -- first visit: lower, allocate the temporary, emit the binding
            let (result, ctx1) ← expr_to_loopy fuel node ctx
            let p := ctx1.name_gen "cse"
            let ctx3 := { p.2 with
              cse_names := p.2.cse_names ++ [p.1],
              node_to_var_name := p.2.node_to_var_name ++ [(node.nid, p.1)] }
            let (free_inames, ctx4) ← inamesList node.fids ctx3
            let ctx5 := { ctx4 with
              node_to_inames := ctx4.node_to_inames ++ [(node.nid, node.fids)],
              assignments := ctx4.assignments ++ [(p.1, free_inames, result)] }
            cse_reference fuel p.1 node.fids ctx5
      else
        expr_to_loopy fuel node ctx

/-- The common tail of rec_gem building the reference to a CSE temporary:
a bare variable when there are no free indices, else a subscript by the
lowered recorded free indices. -/
def cse_reference : Nat → String → List GIndex → Ctx → Except Err (PExpr × Ctx)
  | 0, _, _, _ => .error .outOfFuel
  | fuel+1, var_name, fis, ctx =>
      if fis.isEmpty then .ok (.var var_name, ctx)
      else do
        let (subs, ctx1) ← indexList fuel fis ctx
        .ok (.subscript (.var var_name) subs, ctx1)

/-- expr_to_loopy: the per-variant structural lowering (the singledispatch
registrations map_literal, map_variable, map_indexed, map_index_sum and the
rest of the source are the match arms). -/
def expr_to_loopy : Nat → Gem → Ctx → Except Err (PExpr × Ctx)
  | 0, _, _ => .error .outOfFuel
  | fuel+1, node, ctx =>
      match node.core with
      | .identity _ => .error (.notImplementedError "Identity")
      | .zero _ => .error (.notImplementedError "Zero")
      | .literal arr =>
          if arr.shape = [] then .ok (.lit arr.scalarValue, ctx)
          else
            -- the source reads g.literal_to_name where g is the gem module,
            -- which has no such attribute (ctx.literal_to_name was intended)
            .error (.attributeError "module gem has no attribute literal_to_name")
      | .var nm sh => do
          let (n, ctx1) ← ctx.variable_to_name node.nid nm sh
          .ok (.var n, ctx1)
      | .sum cs => do
          let (es, ctx1) ← lowerList fuel cs ctx
          .ok (.sum es, ctx1)
      | .product cs => do
          let (es, ctx1) ← lowerList fuel cs ctx
          .ok (.product es, ctx1)
      | .division a b => do
          let (ea, ctx1) ← rec_gem fuel a ctx
          let (eb, ctx2) ← rec_gem fuel b ctx1
          .ok (.quotient ea eb, ctx2)
      | .power a b => do
          let (ea, ctx1) ← rec_gem fuel a ctx
          let (eb, ctx2) ← rec_gem fuel b ctx1
          .ok (.power ea eb, ctx2)
      | .mathFunction nm cs => do
          let (es, ctx1) ← lowerList fuel cs ctx
          .ok (.call (.var nm) es, ctx1)
      | .minValue cs => do
          let (es, ctx1) ← lowerList fuel cs ctx
          .ok (.minOp es, ctx1)
      | .maxValue cs => do
          let (es, ctx1) ← lowerList fuel cs ctx
          .ok (.maxOp es, ctx1)
      | .comparison op a b => do
          let (ea, ctx1) ← rec_gem fuel a ctx
          let (eb, ctx2) ← rec_gem fuel b ctx1
          .ok (.comparison ea op eb, ctx2)
      | .indexed c multiindex => do
          let (n, ctx1) ← index_aggregate_to_name c ctx
          let (idxs, ctx2) ← indexList fuel multiindex ctx1
          .ok (.subscript (.var n) idxs, ctx2)
      | .flexiblyIndexed c dim2idxs =>
          match c.shapeAttr with
          | none => .error (.attributeError "no shape attribute")
          | some sh =>
              if sh = [none] then do
                let (n, ctx1) ← index_aggregate_to_name c ctx
                .ok (.var n, ctx1)
              else do
                let (n, ctx1) ← index_aggregate_to_name c ctx
                let (idxs, ctx2) ← flexOuter fuel dim2idxs ctx1
                .ok (.subscript (.var n) idxs, ctx2)
      | .indexSum body mi => do
          let (subexpr, ctx1) ← rec_gem fuel body ctx
          let p := ctx1.name_gen "sum_tmp"
          let (arg_names, ctx3) ← inamesList node.fids p.2
          let (red_inames, ctx4) ← inamesList mi ctx3
          let ctx5 := { ctx4 with
            subst_rules := ctx4.subst_rules ++
              [(p.1, arg_names, PExpr.reduction "sum" red_inames subexpr)] }
          .ok (.call (.var p.1) (arg_names.map PExpr.var), ctx5)

/-- index_to_loopy: polymorphic index lowering (map_index, map_varindex,
map_int). -/
def index_to_loopy : Nat → GIndex → Ctx → Except Err (PExpr × Ctx)
  | 0, _, _ => .error .outOfFuel
  | _+1, .index inm count extent, ctx => do
      let (iname, ctx1) ← ctx.index_to_iname (.index inm count extent)
      .ok (.var iname, ctx1)
  | fuel+1, .varIndex e, ctx => rec_gem fuel e ctx
  | _+1, .intConst n, ctx => .ok (.lit n, ctx)

/-- tuple(ctx.rec_gem(c, node) for c in node.children) of convert_multichild. -/
def lowerList : Nat → List Gem → Ctx → Except Err (List PExpr × Ctx)
  | 0, _, _ => .error .outOfFuel
  | _+1, [], ctx => .ok ([], ctx)
  | fuel+1, c :: cs, ctx => do
      let (e, ctx1) ← rec_gem fuel c ctx
      let (es, ctx2) ← lowerList fuel cs ctx1
      .ok (e :: es, ctx2)

/-- tuple(index_to_loopy(i, ctx) for i in multiindex). -/
def indexList : Nat → List GIndex → Ctx → Except Err (List PExpr × Ctx)
  | 0, _, _ => .error .outOfFuel
  | _+1, [], ctx => .ok ([], ctx)
  | fuel+1, i :: rest, ctx => do
      let (e, ctx1) ← index_to_loopy fuel i ctx
      let (es, ctx2) ← indexList fuel rest ctx1
      .ok (e :: es, ctx2)

/-- flex_idx_to_loopy over all axis descriptors of a FlexiblyIndexed node. -/
def flexOuter : Nat → List (Int × List (GIndex × Int)) → Ctx → Except Err (List PExpr × Ctx)
  | 0, _, _ => .error .outOfFuel
  | _+1, [], ctx => .ok ([], ctx)
  | fuel+1, (off, idxs) :: rest, ctx => do
      let (e, ctx1) ← flexInner fuel (.lit off) idxs ctx
      let (es, ctx2) ← flexOuter fuel rest ctx1
      .ok (e :: es, ctx2)

/-- result = off; for i, s in idxs: result += index_to_loopy(i, ctx) * s. -/
def flexInner : Nat → PExpr → List (GIndex × Int) → Ctx → Except Err (PExpr × Ctx)
  | 0, _, _, _ => .error .outOfFuel
  | _+1, acc, [], ctx => .ok (acc, ctx)
  | fuel+1, acc, (i, s) :: rest, ctx => do
      let (ie, ctx1) ← index_to_loopy fuel i ctx
      flexInner fuel (pAdd acc (pMul ie s)) rest ctx1

end

mutual

/-- count_subexpression_uses: the pre-pass reference count, re-entering
shared children once per parent edge. -/
def count_subexpression_uses : Nat → Gem → List (Nat × Nat) → Except Err (List (Nat × Nat))
  | 0, _, _ => .error .outOfFuel
  | fuel+1, node, m => countUsesList fuel node.children (assocBump m node.nid)

def countUsesList : Nat → List Gem → List (Nat × Nat) → Except Err (List (Nat × Nat))
  | 0, _, _ => .error .outOfFuel
  | _+1, [], m => .ok m
  | fuel+1, c :: cs, m => do
      let m1 ← count_subexpression_uses fuel c m
      countUsesList fuel cs m1

end

/-- The argument_ordering deduplication loop at the head of tsfc_to_loopy:
first occurrence kept, later duplicates dropped (membership is Python ==,
that is identity of gem Index objects). -/
def dedupArgGo (new : List GIndex) : List GIndex → List GIndex
  | [] => new
  | idx :: rest =>
      if new.any (fun x => x.same idx) then dedupArgGo new rest
      else dedupArgGo (new ++ [idx]) rest

def dedup_argument_ordering (argument_ordering : List GIndex) : List GIndex :=
  dedupArgGo [] argument_ordering

/-- The exprs_and_free_inames comprehension: for every (lhs, node) pair,
lower the right-hand side and convert exactly those argument-ordering
indices that occur among the free indices of the node. -/
def buildExprs (fuel : Nat) :
    List (Gem × Gem) → List GIndex → Ctx →
    Except Err (List (Gem × PExpr × List String) × Ctx)
  | [], _, ctx => .ok ([], ctx)
  | (lhs, node) :: rest, argOrd, ctx => do
      let (e, ctx1) ← rec_gem fuel node ctx
      let (fis, ctx2) ←
        inamesList (argOrd.filter (fun i => node.fids.any (fun j => j.same i))) ctx1
      let (restT, ctx3) ← buildExprs fuel rest argOrd ctx2
      .ok ((lhs, e, fis) :: restT, ctx3)

/-- A loopy assignment instruction (target subscript, source expression,
forced iname dependencies, tags; forced_iname_deps_is_final is always
true in the source and is not tracked). -/
structure Insn where
  target : PExpr
  rhs : PExpr
  forced_iname_deps : List String
  tags : List String

/-- A loopy temporary variable declaration (dtype and auto shape are left to
the consuming stage and not tracked). -/
structure TempVar where
  name : String
  initializer : Option GArray
  read_only : Bool
  scope : String

/-- The output kernel: iteration domain as the list of 0 <= iname < extent
conjuncts, the instruction list, the substitution rules (passed alongside
the instructions to make_kernel in the source) and the data declarations. -/
structure Kernel where
  domain : List (String × Nat)
  instructions : List Insn
  subst_rules : List (String × List String × PExpr)
  temps : List TempVar
  kernel_name : String

/-- subscr of the source: a name subscripted by index names, or the bare
variable when the index tuple is empty. -/
def subscr (name : String) (indices : List String) : PExpr :=
  if indices.isEmpty then .var name
  else .subscript (.var name) (indices.map PExpr.var)

mutual

/-- DependencyMapper(composite_leaves=False) over a lowered expression:
the names of all variables occurring in it, in occurrence order (the source
obtains an unordered set; occurrence order fixes one enumeration). -/
def pexpr_deps : Nat → PExpr → Except Err (List String)
  | 0, _ => .error .outOfFuel
  | _+1, .var n => .ok [n]
  | _+1, .lit _ => .ok []
  | fuel+1, .subscript a idxs => do
      let d1 ← pexpr_deps fuel a
      let d2 ← pexprDepsList fuel idxs
      .ok (d1 ++ d2)
  | fuel+1, .sum cs => pexprDepsList fuel cs
  | fuel+1, .product cs => pexprDepsList fuel cs
  | fuel+1, .minOp cs => pexprDepsList fuel cs
  | fuel+1, .maxOp cs => pexprDepsList fuel cs
  | fuel+1, .quotient a b => do
      let d1 ← pexpr_deps fuel a
      let d2 ← pexpr_deps fuel b
      .ok (d1 ++ d2)
  | fuel+1, .power a b => do
      let d1 ← pexpr_deps fuel a
      let d2 ← pexpr_deps fuel b
      .ok (d1 ++ d2)
  | fuel+1, .call f args => do
      let d1 ← pexpr_deps fuel f
      let d2 ← pexprDepsList fuel args
      .ok (d1 ++ d2)
  | fuel+1, .comparison a _ b => do
      let d1 ← pexpr_deps fuel a
      let d2 ← pexpr_deps fuel b
      .ok (d1 ++ d2)
  | fuel+1, .reduction _ _ b => pexpr_deps fuel b

def pexprDepsList : Nat → List PExpr → Except Err (List String)
  | 0, _ => .error .outOfFuel
  | _+1, [] => .ok []
  | fuel+1, e :: es => do
      let d1 ← pexpr_deps fuel e
      let d2 ← pexprDepsList fuel es
      .ok (d1 ++ d2)

end

/-- First-occurrence deduplication of the dependency name list (the source
iterates over a Python set whose order is unspecified). -/
def dedupStrGo (seen : List String) : List String → List String
  | [] => []
  | s :: rest =>
      if s ∈ seen then dedupStrGo seen rest
      else s :: dedupStrGo (seen ++ [s]) rest

def dedupStr (l : List String) : List String := dedupStrGo [] l

/-- The inner loop over iname_deps of a top-level assignment: each distinct
loop variable of the left-hand subscript yields one instruction whose target
is a freshly named variable (name_gen on the aggregate name) subscripted by
that single loop variable, with overwrite or accumulate right-hand side
according to the global generate_increments flag. -/
def emitTopLevel (generate_increments : Bool) (lhs_expr rhs : PExpr)
    (free_indices : List String) (aggregate_name : String) :
    List String → Ctx → List Insn × Ctx
  | [], ctx => ([], ctx)
  | v :: rest, ctx =>
      let p := ctx.name_gen aggregate_name
      let lhs_expr_single : PExpr := .subscript (.var p.1) [.var v]
      let assignment_rhs := if generate_increments then pAdd lhs_expr rhs else rhs
      let pr := emitTopLevel generate_increments lhs_expr rhs free_indices
        aggregate_name rest p.2
      (⟨lhs_expr_single, assignment_rhs, free_indices, []⟩ :: pr.1, pr.2)

/-- The instructions-from-IR loop: lower each left-hand side, require it to
be a subscript (assert isinstance(lhs_expr, p.Subscript)), read the name of
its aggregate, collect the loop variables of its index tuple, and emit one
instruction per loop variable.  Returns the instructions, the collected
pymbolic_lhss and the final context. -/
def processIr (fuel : Nat) (generate_increments : Bool) :
    List (Gem × PExpr × List String) → Ctx →
    Except Err (List Insn × List PExpr × Ctx)
  | [], ctx => .ok ([], [], ctx)
  | (lhs, rhs, free_indices) :: rest, ctx => do
      let (lhs_expr, ctx1) ← rec_gem fuel lhs ctx
      match lhs_expr with
      | .subscript (.var aggregate_name) index_tuple => do
          let depsRaw ← pexprDepsList fuel index_tuple
          let iname_deps := dedupStr depsRaw
          let pr := emitTopLevel generate_increments lhs_expr rhs free_indices
            aggregate_name iname_deps ctx1
          let (restInsns, restLhss, ctx3) ← processIr fuel generate_increments rest pr.2
          .ok (pr.1 ++ restInsns, lhs_expr :: restLhss, ctx3)
      | .subscript _ _ => .error (.attributeError "aggregate has no name attribute")
      | _ => .error .assertionError

/-- The construct-domain block of tsfc_to_loopy: the domain accumulator
starts as None and one 0 <= iname < length conjunct is added per entry of
the index table.  With an empty table the accumulator is still None and
domain.get_basic_sets() raises AttributeError on None.  The built domain is
modelled as the list of (iname, extent) conjuncts. -/
def construct_domain (axes : List (String × Nat)) : Except Err (List (String × Nat)) :=
  match axes with
  | [] => .error (.attributeError "NoneType object has no attribute get_basic_sets")
  | _ => .ok axes

/-- All integer points of the iteration domain, as assignments of loop
variable names to values. -/
def domain_points : List (String × Nat) → List (List (String × Int))
  | [] => [[]]
  | (v, n) :: rest =>
      ((List.range n).map Int.ofNat).flatMap
        (fun k => (domain_points rest).map (fun env => (v, k) :: env))

mutual

/-- Evaluation of a quasi-affine subscript expression at a domain point
(loopy.symbolic.get_access_range requires quasi-affine subscripts and
raises on anything else; loopy and islpy are external dependencies). -/
def evalAffine : Nat → List (String × Int) → PExpr → Except Err Int
  | 0, _, _ => .error .outOfFuel
  | _+1, env, .var n =>
      match env.lookup n with
      | some v => .ok v
      | none => .error (.valueError "unknown variable in subscript")
  | _+1, _, .lit v => .ok v
  | fuel+1, env, .sum cs => do
      let vs ← evalAffineList fuel env cs
      .ok (vs.foldl (· + ·) 0)
  | fuel+1, env, .product cs => do
      let vs ← evalAffineList fuel env cs
      .ok (vs.foldl (· * ·) 1)
  | _+1, _, _ => .error (.valueError "subscript is not quasi-affine")

def evalAffineList : Nat → List (String × Int) → List PExpr → Except Err (List Int)
  | 0, _, _ => .error .outOfFuel
  | _+1, _, [] => .ok []
  | fuel+1, env, e :: es => do
      let v ← evalAffine fuel env e
      let vs ← evalAffineList fuel env es
      .ok (v :: vs)

end

/-- get_access_range(domain, index_tuple, assumptions) with the always-true
assumption space of get_empty_assumptions_domain: the set of concrete index
tuples the subscript reaches as the loop variables range over the domain. -/
def get_access_range (fuel : Nat) (domain : List (String × Nat))
    (index_tuple : List PExpr) : Except Err (List (List Int)) :=
  (domain_points domain).mapM
    (fun env => index_tuple.mapM (fun e => evalAffine fuel env e))

/-- Nonemptiness of the intersection of two access ranges
(not (r1 & r2).is_empty() on islpy sets). -/
def rangesOverlap (r1 r2 : List (List Int)) : Bool :=
  r1.any (fun t => r2.any (fun t2 => t = t2))

/-- lhs.index_tuple of a pymbolic subscript. -/
def index_tuple_of : PExpr → Except Err (List PExpr)
  | .subscript _ idxs => .ok idxs
  | _ => .error (.attributeError "expression has no index_tuple attribute")

/-- The write-footprint disjointness block of tsfc_to_loopy.  It mirrors
the source exactly: each access range is compared against the accumulated
write_ranges list, and the source never appends to that list, so it stays
empty for the whole loop. -/
def write_footprint_loop (fuel : Nat) (domain : List (String × Nat))
    (write_ranges : List (List (List Int))) :
    List PExpr → Except Err Unit
  | [] => .ok ()
  | lhs :: rest => do
      let idxs ← index_tuple_of lhs
      let write_range ← get_access_range fuel domain idxs
      if write_ranges.any (fun other => rangesOverlap write_range other) then
        .error (.valueError "assignment write ranges are not disjoint")
      else
        -- the source omits write_ranges.append(write_range) here
        write_footprint_loop fuel domain write_ranges rest

def check_write_footprints (fuel : Nat) (domain : List (String × Nat))
    (pymbolic_lhss : List PExpr) : Except Err Unit :=
  write_footprint_loop fuel domain [] pymbolic_lhss

/-- tsfc_to_loopy: the main entry point.  ir is the list of top-level
(lhs, rhs) assignment pairs; argument_ordering the preferred exposed
argument order; generate_increments the global overwrite/accumulate flag. -/
def tsfc_to_loopy (fuel : Nat) (ir : List (Gem × Gem))
    (argument_ordering : List GIndex) (kernel_name : String)
    (generate_increments : Bool) : Except Err Kernel := do
  let argOrd := dedup_argument_ordering argument_ordering
  let uc ← countUsesList fuel (ir.map (fun pr => pr.2)) []
  let ctx0 := Ctx.init uc
  let (triples, ctx1) ← buildExprs fuel ir argOrd ctx0
  let cse_instructions := ctx1.assignments.map
    (fun a => Insn.mk (subscr a.1 a.2.1) a.2.2 a.2.1 ["cse"])
  let (ir_instructions, pymbolic_lhss, ctx2) ←
    processIr fuel generate_increments triples ctx1
  let instructions := cse_instructions ++ ir_instructions
  let domain ← construct_domain
    (ctx2.index_to_iname_and_length.map (fun e => (e.2.1, e.2.2)))
  let _ ← check_write_footprints fuel domain pymbolic_lhss
  let global_temps := ctx2.literal_to_name_and_array.map
    (fun e => TempVar.mk e.2.1 (some e.2.2) true "global")
  let cse_temps := ctx2.cse_names.map
    (fun n => TempVar.mk n none false "private")
  .ok (Kernel.mk domain instructions ctx2.subst_rules
    (global_temps ++ cse_temps) kernel_name)

def exceptIsOk {α : Type} (e : Except Err α) : Bool :=
  match e with
  | .ok _ => true
  | .error _ => false

/-- np.cumprod: the list of running products. -/
def cumprodList : List Nat → List Nat
  | [] => []
  | x :: xs => x :: (cumprodList xs).map (fun y => x * y)

/-- cumulative_strides of the source:
np.flipud(np.cumprod(np.flipud(list(strides)[1:]))) with 1 appended. -/
def cumulative_strides (strides : List Nat) : List Nat :=
  ((cumprodList ((strides.drop 1).reverse)).reverse) ++ [1]

/-- Written from the spec text of claim C7, for comparison with
cumulative_strides: the stride for axis i is the product of all capacities
strictly to its right, the last axis having stride 1. -/
def row_major_strides (l : List Nat) : List Nat :=
  (List.range l.length).map (fun i => (l.drop (i + 1)).prod)

/-- Every string in the used list is at most maxNameLen long. -/
theorem length_le_maxNameLen {used : List String} {s : String} (h : s ∈ used) :
    s.length ≤ maxNameLen used := by
  induction used with
  | nil => cases h
  | cons a rest ih =>
      unfold maxNameLen
      rcases List.mem_cons.mp h with rfl | hm
      · simp [List.foldr]
      · simpa [List.foldr] using Or.inr (ih hm)

/-- The name allocator never returns a name that is already used. -/
theorem uniqueName_not_mem (used : List String) (base : String) :
    uniqueName used base ∉ used := by
  unfold uniqueName
  by_cases hb : base ∈ used
  · simp only [hb, if_true]
    intro hmem
    have hle := length_le_maxNameLen hmem
    have : (base ++ String.mk (List.replicate (maxNameLen used + 1) '_')).length
        = base.length + (maxNameLen used + 1) := by
      simp [String.length_append]
    omega
  · simp [hb]

theorem cumprodList_append_singleton (xs : List Nat) (y : Nat) :
    cumprodList (xs ++ [y]) = cumprodList xs ++ [xs.prod * y] := by
  induction xs with
  | nil => simp [cumprodList]
  | cons x xs ih =>
      simp [cumprodList, ih, List.map_append, Nat.mul_assoc, List.prod_cons]

theorem row_major_strides_cons (a : Nat) (l : List Nat) :
    row_major_strides (a :: l) = l.prod :: row_major_strides l := by
  unfold row_major_strides
  simp [List.range_succ_eq_map, List.map_map]

theorem cumulative_strides_cons_cons (a b : Nat) (t : List Nat) :
    cumulative_strides (a :: b :: t) = (t.prod * b) :: cumulative_strides (b :: t) := by
  simp [cumulative_strides, List.reverse_cons, cumprodList_append_singleton,
    List.prod_reverse]

/-- C7: cumulative_strides maps a capacity list to row-major strides: for a
nonempty capacity list the stride for axis i is the product of all
capacities strictly to its right and the last axis has stride 1; in
particular cumulative_strides [2,3,4] = (12,4,1) and
cumulative_strides [5] = (1,). -/
theorem cumulative_strides_row_major :
    (∀ l : List Nat, l ≠ [] → cumulative_strides l = row_major_strides l) ∧
    cumulative_strides [2, 3, 4] = [12, 4, 1] ∧
    cumulative_strides [5] = [1] := by
  refine ⟨?_, rfl, rfl⟩
  intro l hl
  induction l with
  | nil => exact absurd rfl hl
  | cons a t ih =>
      cases t with
      | nil => rfl
      | cons b t' =>
          rw [cumulative_strides_cons_cons, ih (by simp),
            row_major_strides_cons a (b :: t'), List.prod_cons,
            Nat.mul_comm b t'.prod]

theorem cumulative_strides_row_major_witness :
    cumulative_strides [2, 3, 4] = row_major_strides [2, 3, 4] :=
  cumulative_strides_row_major.1 [2, 3, 4] (by simp)

/-- C2: lowering a rank-0 Literal inlines the raw scalar value, as the
claim states; but lowering a Literal of rank at least one does not return a
reference to its literal-table name: map_literal evaluates
g.literal_to_name(node) where g is the imported gem module, which has no
attribute literal_to_name, so the lowering raises AttributeError instead
(ctx.literal_to_name was evidently intended). -/
theorem map_literal_rank_behavior :
    expr_to_loopy 1 (Gem.mk 0 [] (.literal ⟨[], [7]⟩)) (Ctx.init [])
      = .ok (.lit 7, Ctx.init []) ∧
    expr_to_loopy 1 (Gem.mk 1 [] (.literal ⟨[2], [3, 4]⟩)) (Ctx.init [])
      = .error (.attributeError "module gem has no attribute literal_to_name") :=
  ⟨rfl, rfl⟩

/-- C10: when no loop index is registered at domain-construction time the
domain accumulator stays None and domain.get_basic_sets() aborts the run
with AttributeError; a run whose only subscripts are integer constants
registers no index and therefore fails instead of returning a kernel. -/
theorem empty_index_table_aborts :
    construct_domain ([] : List (String × Nat))
      = .error (.attributeError "NoneType object has no attribute get_basic_sets") ∧
    tsfc_to_loopy 40
      [(Gem.mk 1 [] (.indexed (Gem.mk 0 [] (.var "a" [some 3])) [.intConst 0]),
        Gem.mk 2 [] (.literal ⟨[], [5]⟩))]
      [] "k" false
      = .error (.attributeError "NoneType object has no attribute get_basic_sets") :=
  ⟨rfl, rfl⟩

def conflict_i : GIndex := .index (some "i") 0 3

def conflict_a : Gem := .mk 0 [] (.var "a" [some 3])

/-- The C1 failing input: two distinct top-level assignments both writing
a[i] for the full extent of i, with the always-true assumption space. -/
def conflict_ir : List (Gem × Gem) :=
  [(Gem.mk 1 [conflict_i] (.indexed conflict_a [conflict_i]),
    Gem.mk 3 [] (.literal ⟨[], [5]⟩)),
   (Gem.mk 2 [conflict_i] (.indexed conflict_a [conflict_i]),
    Gem.mk 4 [] (.literal ⟨[], [6]⟩))]

/-- C1: the write-footprint checker never fires.  The two assignments of
conflict_ir have identical (hence intersecting) write-index sets over the
domain 0 <= i < 3, yet the lowering run returns a kernel instead of failing
with the write-conflict error: the source never appends to its
write_ranges accumulator, so every access range is compared against an
empty list. -/
theorem write_conflict_check_never_fires :
    get_access_range 5 [("i", 3)] [PExpr.var "i"] = .ok [[0], [1], [2]] ∧
    rangesOverlap [[0], [1], [2]] [[0], [1], [2]] = true ∧
    exceptIsOk (tsfc_to_loopy 40 conflict_ir [conflict_i] "tsfc_kernel" false)
      = true :=
  ⟨rfl, rfl, rfl⟩

/-- C4: a shared node that is a rank-0 literal or an Indexed or
FlexiblyIndexed node is never CSE-eligible, and rec_gem on such a node is
exactly the in-place structural lowering expr_to_loopy, whatever its use
count and whatever the context: it is never hoisted into a temporary. -/
theorem cse_ineligible_lowered_in_place :
    ∀ (fuel : Nat) (node : Gem) (ctx : Ctx),
      ((∃ arr, node.core = .literal arr ∧ arr.shape = []) ∨
       (∃ b mi, node.core = .indexed b mi) ∨
       (∃ b d, node.core = .flexiblyIndexed b d)) →
      is_cse_eligible node = false ∧
      rec_gem (fuel + 1) node ctx = expr_to_loopy fuel node ctx := by
  intro fuel node ctx h
  have helig : is_cse_eligible node = false := by
    unfold is_cse_eligible
    rcases h with ⟨arr, hc, hsh⟩ | ⟨b, mi, hc⟩ | ⟨b, d, hc⟩
    · rw [hc]; simp [hsh]
    · rw [hc]; simp
    · rw [hc]; simp
  refine ⟨helig, ?_⟩
  rw [rec_gem]
  rw [if_neg]
  intro hcond
  rw [helig] at hcond
  exact absurd hcond.2 (by simp)

theorem cse_ineligible_lowered_in_place_witness :
    is_cse_eligible (Gem.mk 0 [] (.literal ⟨[], [7]⟩)) = false ∧
    rec_gem 2 (Gem.mk 0 [] (.literal ⟨[], [7]⟩)) (Ctx.init [])
      = expr_to_loopy 1 (Gem.mk 0 [] (.literal ⟨[], [7]⟩)) (Ctx.init []) :=
  cse_ineligible_lowered_in_place 1 (Gem.mk 0 [] (.literal ⟨[], [7]⟩))
    (Ctx.init []) (Or.inl ⟨⟨[], [7]⟩, rfl, rfl⟩)

/-- C9: for each distinct loop variable of a lowered left-hand subscript
whose aggregate name is already a used name, the emitted top-level
instruction targets a freshly allocated name drawn from the name allocator
on the aggregate name: the target is that new name subscripted by the
single loop variable only, the new name differs from the aggregate name,
and no emitted instruction writes through the original lowered left-hand
subscript. -/
theorem top_level_targets_freshly_named :
    ∀ (genInc : Bool) (rhs : PExpr) (fis : List String) (aname : String)
      (idxs : List PExpr) (deps : List String) (ctx : Ctx),
      aname ∈ ctx.used_names →
      (emitTopLevel genInc (.subscript (.var aname) idxs) rhs fis aname deps ctx).1.length
        = deps.length ∧
      ∀ pr ∈ ((emitTopLevel genInc (.subscript (.var aname) idxs) rhs fis aname
          deps ctx).1.zip deps),
        ∃ nm, pr.1.target = .subscript (.var nm) [.var pr.2] ∧ nm ≠ aname ∧
          pr.1.target ≠ .subscript (.var aname) idxs := by
  intro genInc rhs fis aname idxs deps
  induction deps with
  | nil => intro ctx h; exact ⟨rfl, by intro pr hpr; cases hpr⟩
  | cons v rest ih =>
      intro ctx h
      have hfresh := uniqueName_not_mem ctx.used_names aname
      have hne : uniqueName ctx.used_names aname ≠ aname := by
        intro heq; rw [heq] at hfresh; exact hfresh h
      have hmem : aname ∈ (ctx.name_gen aname).2.used_names := by
        simp [Ctx.name_gen]
        exact Or.inr h
      obtain ⟨ihlen, ihmem⟩ := ih (ctx.name_gen aname).2 hmem
      constructor
      · simp only [emitTopLevel, List.length_cons]
        rw [ihlen]
      · intro pr hpr
        simp only [emitTopLevel, List.zip_cons_cons] at hpr
        rcases List.mem_cons.mp hpr with rfl | htail
        · refine ⟨uniqueName ctx.used_names aname, rfl, hne, ?_⟩
          intro heq
          rw [PExpr.subscript.injEq, PExpr.var.injEq] at heq
          exact hne heq.1
        · exact ihmem pr htail

theorem top_level_targets_freshly_named_witness :
    (emitTopLevel false (.subscript (.var "out") [.var "i"]) (.lit 5) []
      "out" ["i"] { Ctx.init [] with used_names := ["out"] }).1.length = 1 ∧
    ∀ pr ∈ ((emitTopLevel false (.subscript (.var "out") [.var "i"]) (.lit 5) []
        "out" ["i"] { Ctx.init [] with used_names := ["out"] }).1.zip ["i"]),
      ∃ nm, pr.1.target = .subscript (.var nm) [.var pr.2] ∧ nm ≠ "out" ∧
        pr.1.target ≠ .subscript (.var "out") [.var "i"] :=
  top_level_targets_freshly_named false (.lit 5) [] "out" [.var "i"] ["i"]
    { Ctx.init [] with used_names := ["out"] } (by simp)

/-- Stepping lemma for Except do-chains. -/
theorem except_bind_ok {α β : Type} (e : Except Err α) (f : α → Except Err β) (b : β) :
    (e >>= f) = .ok b ↔ ∃ a, e = .ok a ∧ f a = .ok b := by
  cases e with
  | error err =>
      constructor
      · intro h; exact Except.noConfusion h
      · rintro ⟨a, ha, -⟩; exact Except.noConfusion ha
  | ok a =>
      constructor
      · intro h; exact ⟨a, rfl, h⟩
      · rintro ⟨a', ha, hf⟩
        injection ha with h'
        subst h'
        exact hf

/-- Every instruction emitted by the iname_deps loop of one top-level
assignment carries the right-hand side selected by the global
generate_increments flag. -/
theorem emitTopLevel_rhs_uniform (genInc : Bool) (lhs_expr rhs : PExpr)
    (fis : List String) (aname : String) :
    ∀ (deps : List String) (ctx : Ctx),
      ∀ insn ∈ (emitTopLevel genInc lhs_expr rhs fis aname deps ctx).1,
        insn.rhs = if genInc then pAdd lhs_expr rhs else rhs := by
  intro deps
  induction deps with
  | nil => intro ctx insn h; cases h
  | cons v rest ih =>
      intro ctx insn h
      simp only [emitTopLevel] at h
      rcases List.mem_cons.mp h with rfl | htail
      · rfl
      · exact ih _ insn htail

/-- C5 counterexample: the claim reads accumulate semantics as
target = target + rhs, but at this concrete input the single emitted
instruction has the freshly named subscript out____[i] as target while its
right-hand side reads the original subscript out[i]; the instruction rhs is
not (its own target) + rhs. -/
theorem accumulate_target_mismatch :
    (emitTopLevel true (.subscript (.var "out") [.var "i"]) (.lit 5) [] "out"
      ["i"] { Ctx.init [] with used_names := ["out"] }).1.map Insn.rhs
      = [.sum [.subscript (.var "out") [.var "i"], .lit 5]] ∧
    (emitTopLevel true (.subscript (.var "out") [.var "i"]) (.lit 5) [] "out"
      ["i"] { Ctx.init [] with used_names := ["out"] }).1.map Insn.target
      = [.subscript (.var "out____") [.var "i"]] ∧
    PExpr.sum [.subscript (.var "out") [.var "i"], .lit 5]
      ≠ pAdd (.subscript (.var "out____") [.var "i"]) (.lit 5) := by
  refine ⟨rfl, rfl, ?_⟩
  intro h
  simp [pAdd] at h

/-- C5 amended: the generate_increments flag is a single global mode: every
instruction emitted for a top-level assignment has right-hand side rhs
(overwrite) or lhs_expr + rhs (accumulate), where lhs_expr is the original
lowered left-hand subscript being read, not the instruction target (the
target is freshly named, see C9); and over a whole processIr run every
emitted instruction draws its form from the one flag, never per-assignment. -/
theorem accumulate_flag_uniform :
    (∀ (genInc : Bool) (lhs_expr rhs : PExpr) (fis : List String)
       (aname : String) (deps : List String) (ctx : Ctx),
       ∀ insn ∈ (emitTopLevel genInc lhs_expr rhs fis aname deps ctx).1,
         insn.rhs = if genInc then pAdd lhs_expr rhs else rhs) ∧
    (∀ (fuel : Nat) (genInc : Bool) (triples : List (Gem × PExpr × List String))
       (ctx : Ctx) (insns : List Insn) (lhss : List PExpr) (ctx' : Ctx),
       processIr fuel genInc triples ctx = .ok (insns, lhss, ctx') →
       ∀ insn ∈ insns, ∃ t ∈ triples, ∃ lhsE,
         insn.rhs = if genInc then pAdd lhsE t.2.1 else t.2.1) := by
  constructor
  · intro genInc lhs_expr rhs fis aname deps ctx
    exact emitTopLevel_rhs_uniform genInc lhs_expr rhs fis aname deps ctx
  · intro fuel genInc triples
    induction triples with
    | nil =>
        intro ctx insns lhss ctx' h insn hins
        simp only [processIr, Except.ok.injEq, Prod.mk.injEq] at h
        obtain ⟨h1, -, -⟩ := h
        subst h1
        cases hins
    | cons t rest ih =>
        intro ctx insns lhss ctx' h insn hins
        obtain ⟨lhs, rhs0, fis⟩ := t
        simp only [processIr] at h
        rw [except_bind_ok] at h
        obtain ⟨⟨lhs_expr, ctx1⟩, hrec, h⟩ := h
        cases lhs_expr with
        | subscript agg index_tuple =>
            cases agg with
            | var aggregate_name =>
                try dsimp only at h
                rw [except_bind_ok] at h
                obtain ⟨depsRaw, hdeps, h⟩ := h
                try dsimp only at h
                rw [except_bind_ok] at h
                obtain ⟨⟨restInsns, restLhss, ctx3⟩, hrest, h⟩ := h
                try dsimp only at h
                rw [Except.ok.injEq, Prod.mk.injEq, Prod.mk.injEq] at h
                obtain ⟨h1, -, -⟩ := h
                subst h1
                rcases List.mem_append.mp hins with hhead | htail
                · exact ⟨(lhs, rhs0, fis), List.mem_cons_self _ _,
                    .subscript (.var aggregate_name) index_tuple,
                    emitTopLevel_rhs_uniform genInc _ rhs0 fis aggregate_name
                      (dedupStr depsRaw) ctx1 insn hhead⟩
                · obtain ⟨t', ht', lhsE, heq⟩ := ih _ _ _ _ hrest insn htail
                  exact ⟨t', List.mem_cons_of_mem _ ht', lhsE, heq⟩
            | _ => try dsimp only at h
                   exact Except.noConfusion h
        | _ => try dsimp only at h
               exact Except.noConfusion h

theorem accumulate_flag_uniform_witness :
    (Insn.mk (.subscript (.var "out____") [.var "i"])
        (.sum [.subscript (.var "out") [.var "i"], .lit 5]) [] []).rhs
      = if true then pAdd (.subscript (.var "out") [.var "i"]) (.lit 5)
        else (.lit 5) :=
  accumulate_flag_uniform.1 true (.subscript (.var "out") [.var "i"]) (.lit 5)
    [] "out" ["i"] { Ctx.init [] with used_names := ["out"] }
    (Insn.mk (.subscript (.var "out____") [.var "i"])
      (.sum [.subscript (.var "out") [.var "i"], .lit 5]) [] [])
    (by rw [show (emitTopLevel true (.subscript (.var "out") [.var "i"]) (.lit 5)
          [] "out" ["i"] { Ctx.init [] with used_names := ["out"] }).1
          = [Insn.mk (.subscript (.var "out____") [.var "i"])
              (.sum [.subscript (.var "out") [.var "i"], .lit 5]) [] []] from rfl]
        exact List.mem_singleton.mpr rfl)

def sameClean (l : List GIndex) : Prop :=
  l.Pairwise (fun a b => a.same b = false)

theorem dedupArgGo_clean :
    ∀ (l acc : List GIndex), sameClean acc → sameClean (dedupArgGo acc l) := by
  intro l
  induction l with
  | nil => intro acc hacc; exact hacc
  | cons idx rest ih =>
      intro acc hacc
      unfold dedupArgGo
      by_cases hany : acc.any (fun x => x.same idx) = true
      · rw [if_pos hany]; exact ih acc hacc
      · rw [if_neg hany]
        refine ih (acc ++ [idx]) ?_
        rw [sameClean, List.pairwise_append]
        refine ⟨hacc, List.pairwise_singleton _ _, ?_⟩
        intro a ha b hb
        rw [List.mem_singleton] at hb
        subst hb
        have := List.any_eq_false.mp (Bool.not_eq_true _ ▸ hany) a ha
        exact Bool.not_eq_true _ ▸ this

theorem dedupArgGo_clean_id :
    ∀ (l acc : List GIndex),
      (∀ x ∈ l, ∀ y ∈ acc, y.same x = false) → sameClean l →
      dedupArgGo acc l = acc ++ l := by
  intro l
  induction l with
  | nil => intro acc _ _; simp [dedupArgGo]
  | cons idx rest ih =>
      intro acc hcross hclean
      unfold dedupArgGo
      have hany : acc.any (fun x => x.same idx) = false := by
        apply List.any_eq_false.mpr
        intro y hy
        simp [hcross idx (List.mem_cons_self _ _) y hy]
      rw [hany]
      simp only [Bool.false_eq_true, if_false]
      have hhead : ∀ b ∈ rest, idx.same b = false :=
        List.pairwise_cons.mp hclean |>.1
      rw [ih (acc ++ [idx]) ?_ (List.pairwise_cons.mp hclean).2]
      · simp
      · intro x hx y hy
        rcases List.mem_append.mp hy with hya | hyi
        · exact hcross x (List.mem_cons_of_mem _ hx) y hya
        · rw [List.mem_singleton] at hyi; subst hyi; exact hhead x hx

theorem dedup_argument_ordering_idem (l : List GIndex) :
    dedup_argument_ordering (dedup_argument_ordering l) = dedup_argument_ordering l := by
  unfold dedup_argument_ordering
  rw [dedupArgGo_clean_id (dedupArgGo [] l) []
    (by intro x _ y hy; cases hy)
    (dedupArgGo_clean l [] (List.Pairwise.nil))]
  simp

/-- C8: the exposed-argument ordering is deduplicated keeping first
occurrences before any use: running tsfc_to_loopy on an argument ordering
and on its deduplication is the same function (the dedup happens at entry,
before the list decides which free indices the instructions expose), and
the list [i, j, i, k] becomes [i, j, k]. -/
theorem argument_ordering_dedup :
    (∀ (fuel : Nat) (ir : List (Gem × Gem)) (argument_ordering : List GIndex)
       (kernel_name : String) (generate_increments : Bool),
       tsfc_to_loopy fuel ir argument_ordering kernel_name generate_increments
         = tsfc_to_loopy fuel ir (dedup_argument_ordering argument_ordering)
             kernel_name generate_increments) ∧
    dedup_argument_ordering
        [.index (some "i") 0 2, .index (some "j") 1 3,
         .index (some "i") 0 2, .index (some "k") 2 4]
      = [.index (some "i") 0 2, .index (some "j") 1 3, .index (some "k") 2 4] := by
  constructor
  · intro fuel ir ao kn gi
    unfold tsfc_to_loopy
    rw [dedup_argument_ordering_idem]
  · rfl

theorem index_to_iname_preserves {ctx : Ctx} {idx : GIndex} {n : String} {ctx' : Ctx}
    (h : ctx.index_to_iname idx = .ok (n, ctx')) :
    ctx'.subst_rules = ctx.subst_rules ∧ ctx'.assignments = ctx.assignments ∧
    ctx'.cse_names = ctx.cse_names ∧ ctx'.node_to_var_name = ctx.node_to_var_name := by
  unfold Ctx.index_to_iname at h
  cases idx with
  | index inm count extent =>
      dsimp only at h
      split at h
      · split at h
        · injection h with h1
          injection h1 with h2 h3
          subst h3
          exact ⟨rfl, rfl, rfl, rfl⟩
        · exact Except.noConfusion h
      · injection h with h1
        injection h1 with h2 h3
        subst h3
        simp [Ctx.name_gen]
  | varIndex e => exact Except.noConfusion h
  | intConst k => exact Except.noConfusion h

theorem inamesList_preserves :
    ∀ (il : List GIndex) (ctx : Ctx) (ns : List String) (ctx' : Ctx),
      inamesList il ctx = .ok (ns, ctx') →
      ctx'.subst_rules = ctx.subst_rules ∧ ctx'.assignments = ctx.assignments ∧
      ctx'.cse_names = ctx.cse_names ∧ ctx'.node_to_var_name = ctx.node_to_var_name := by
  intro il
  induction il with
  | nil =>
      intro ctx ns ctx' h
      simp only [inamesList, Except.ok.injEq, Prod.mk.injEq] at h
      obtain ⟨-, h2⟩ := h
      subst h2
      exact ⟨rfl, rfl, rfl, rfl⟩
  | cons i rest ih =>
      intro ctx ns ctx' h
      simp only [inamesList] at h
      rw [except_bind_ok] at h
      obtain ⟨⟨n1, ctx1⟩, h1, h⟩ := h
      try dsimp only at h
      rw [except_bind_ok] at h
      obtain ⟨⟨ns2, ctx2⟩, h2, h⟩ := h
      try dsimp only at h
      rw [Except.ok.injEq, Prod.mk.injEq] at h
      obtain ⟨-, h3⟩ := h
      subst h3
      obtain ⟨a1, a2, a3, a4⟩ := index_to_iname_preserves h1
      obtain ⟨b1, b2, b3, b4⟩ := ih ctx1 ns2 _ h2
      exact ⟨b1.trans a1, b2.trans a2, b3.trans a3, b4.trans a4⟩

/-- C6: every lowered IndexSum node appends exactly one new substitution
rule to the rule list, named by a fresh draw of the name allocator on
sum_tmp, with the lowered free indices of the node as formal parameters and
a sum-reduction of the lowered body over the reduction indices as
definition, and returns a call of that name; the fresh name differs from
the name of every rule already present, so two distinct IndexSum nodes
(in particular structurally identical bodies with different reduction-index
extents) always produce two distinct rules, never one shared rule. -/
theorem index_sum_fresh_rule :
    ∀ (fuel nid : Nat) (fids : List GIndex) (body : Gem) (mi : List GIndex)
      (ctx : Ctx) (sub : PExpr) (ctxb : Ctx) (res : PExpr) (ctx' : Ctx),
      rec_gem fuel body ctx = .ok (sub, ctxb) →
      (∀ r ∈ ctxb.subst_rules, r.1 ∈ ctxb.used_names) →
      expr_to_loopy (fuel + 1) (Gem.mk nid fids (.indexSum body mi)) ctx
        = .ok (res, ctx') →
      ∃ arg_names red_inames,
        ctx'.subst_rules = ctxb.subst_rules ++
          [(uniqueName ctxb.used_names "sum_tmp", arg_names,
            PExpr.reduction "sum" red_inames sub)] ∧
        res = .call (.var (uniqueName ctxb.used_names "sum_tmp"))
                (arg_names.map PExpr.var) ∧
        ∀ r ∈ ctxb.subst_rules, r.1 ≠ uniqueName ctxb.used_names "sum_tmp" := by
  intro fuel nid fids body mi ctx sub ctxb res ctx' hrec hinv h
  simp only [expr_to_loopy, Gem.core, Gem.fids] at h
  rw [except_bind_ok] at h
  obtain ⟨⟨sub', ctxb'⟩, hrec', h⟩ := h
  rw [hrec] at hrec'
  injection hrec' with h1
  injection h1 with h2 h3
  subst h2
  subst h3
  try dsimp only at h
  rw [except_bind_ok] at h
  obtain ⟨⟨arg_names, ctx3⟩, hin1, h⟩ := h
  try dsimp only at h
  rw [except_bind_ok] at h
  obtain ⟨⟨red_inames, ctx4⟩, hin2, h⟩ := h
  try dsimp only at h
  rw [Except.ok.injEq, Prod.mk.injEq] at h
  obtain ⟨hres, hctx⟩ := h
  subst hctx
  obtain ⟨p1, -, -, -⟩ := inamesList_preserves _ _ _ _ hin1
  obtain ⟨q1, -, -, -⟩ := inamesList_preserves _ _ _ _ hin2
  have hng : (Ctx.name_gen ctxb "sum_tmp").2.subst_rules = ctxb.subst_rules := rfl
  refine ⟨arg_names, red_inames, ?_, hres.symm, ?_⟩
  · simp only [q1, p1, hng]; rfl
  · intro r hr
    intro heq
    have hfresh := uniqueName_not_mem ctxb.used_names "sum_tmp"
    rw [← heq] at hfresh
    exact hfresh (hinv r hr)

theorem index_sum_fresh_rule_witness :
    ∃ (arg_names red_inames : List String),
      [("sum_tmp", ([] : List String), PExpr.reduction "sum" ["j"] (PExpr.var "u"))]
        = ([] : List (String × List String × PExpr)) ++
          [(uniqueName ["u"] "sum_tmp", arg_names,
            PExpr.reduction "sum" red_inames (PExpr.var "u"))] ∧
      PExpr.call (.var "sum_tmp") []
        = .call (.var (uniqueName ["u"] "sum_tmp")) (arg_names.map PExpr.var) := by
  have h := index_sum_fresh_rule 2 11 [] (Gem.mk 10 [] (.var "u" []))
    [.index (some "j") 5 4] (Ctx.init []) (.var "u")
    { Ctx.init [] with used_names := ["u"],
                       var_to_name_and_shape := [(10, "u", [])] }
    (.call (.var "sum_tmp") [])
    { Ctx.init [] with used_names := ["j", "sum_tmp", "u"],
                       var_to_name_and_shape := [(10, "u", [])],
                       index_to_iname_and_length := [(5, "j", 4)],
                       subst_rules := [("sum_tmp", [],
                         PExpr.reduction "sum" ["j"] (PExpr.var "u"))] }
    rfl (by intro r hr; cases hr) rfl
  obtain ⟨a, r, h1, h2, h3⟩ := h
  exact ⟨a, r, h1, h2⟩

theorem except_ok_bind {α β : Type} (a : α) (f : α → Except Err β) :
    (Except.ok a >>= f) = f a := rfl

/-- A gem index already present in the index symbol table with a matching
extent (the state of every free index of a node after its first visit). -/
def registeredIndex (ctx : Ctx) : GIndex → Prop
  | .index _ count extent =>
      ∃ nm, ctx.index_to_iname_and_length.lookup count = some (nm, extent)
  | _ => False

theorem index_to_iname_registered {ctx : Ctx} {i : GIndex}
    (h : registeredIndex ctx i) :
    ∃ nm, ctx.index_to_iname i = .ok (nm, ctx) := by
  cases i with
  | index inm count extent =>
      obtain ⟨nm, hl⟩ := h
      refine ⟨nm, ?_⟩
      simp [Ctx.index_to_iname, hl]
  | varIndex e => exact absurd h (by simp [registeredIndex])
  | intConst k => exact absurd h (by simp [registeredIndex])

theorem inamesList_registered :
    ∀ (il : List GIndex) (ctx : Ctx),
      (∀ i ∈ il, registeredIndex ctx i) →
      ∃ ns, inamesList il ctx = .ok (ns, ctx) := by
  intro il
  induction il with
  | nil => intro ctx _; exact ⟨[], rfl⟩
  | cons i rest ih =>
      intro ctx hreg
      obtain ⟨nm, hnm⟩ := index_to_iname_registered
        (hreg i (List.mem_cons_self _ _))
      obtain ⟨ns, hns⟩ := ih ctx (fun j hj => hreg j (List.mem_cons_of_mem _ hj))
      refine ⟨nm :: ns, ?_⟩
      simp only [inamesList, hnm, except_ok_bind, hns]

theorem index_to_loopy_registered {ctx : Ctx} {i : GIndex} (fuel : Nat)
    (h : registeredIndex ctx i) :
    ∃ nm, index_to_loopy (fuel + 1) i ctx = .ok (.var nm, ctx) := by
  cases i with
  | index inm count extent =>
      obtain ⟨nm, hnm⟩ := index_to_iname_registered h
      refine ⟨nm, ?_⟩
      simp only [index_to_loopy, hnm, except_ok_bind]
  | varIndex e => exact absurd h (by simp [registeredIndex])
  | intConst k => exact absurd h (by simp [registeredIndex])

theorem indexList_registered :
    ∀ (il : List GIndex) (fuel : Nat) (ctx : Ctx),
      (∀ i ∈ il, registeredIndex ctx i) → il.length < fuel →
      ∃ subs, indexList fuel il ctx = .ok (subs, ctx) := by
  intro il
  induction il with
  | nil =>
      intro fuel ctx _ hlen
      obtain ⟨g, rfl⟩ := Nat.exists_eq_succ_of_ne_zero (Nat.pos_iff_ne_zero.mp hlen)
      exact ⟨[], rfl⟩
  | cons i rest ih =>
      intro fuel ctx hreg hlen
      obtain ⟨g, rfl⟩ : ∃ g, fuel = g + 1 :=
        ⟨fuel - 1, by omega⟩
      obtain ⟨k, rfl⟩ : ∃ k, g = k + 1 := by
        refine ⟨g - 1, ?_⟩
        simp only [List.length_cons] at hlen
        omega
      obtain ⟨nm, hnm⟩ := index_to_loopy_registered k
        (hreg i (List.mem_cons_self _ _))
      obtain ⟨subs, hsubs⟩ := ih (k + 1) ctx
        (fun j hj => hreg j (List.mem_cons_of_mem _ hj))
        (by simp only [List.length_cons] at hlen; omega)
      refine ⟨.var nm :: subs, ?_⟩
      simp only [indexList, hnm, except_ok_bind, hsubs]

/-- C3: CSE memoization.  First conjunct (later visits): when a node with
use count above one that is CSE-eligible is already memoized, rec_gem
returns a reference to the recorded temporary, subscripted by the lowered
recorded free indices, and leaves the context completely unchanged: the
expression is not re-lowered and no further binding instruction is emitted.
Second conjunct (first visit): when such a node is not yet memoized,
rec_gem lowers it once, allocates a fresh temporary name, records the memo
entries and appends exactly one binding instruction for the temporary to
the assignment list (exactly one instruction in the final list carries
the fresh name, given that all previously recorded assignment names are
used names), returning the same reference form. -/
theorem cse_memoization :
    (∀ (fuel : Nat) (node : Gem) (ctx : Ctx) (vn : String) (fis : List GIndex),
       1 < assocGetD ctx.expr_use_count node.nid →
       is_cse_eligible node = true →
       ctx.node_to_var_name.lookup node.nid = some vn →
       ctx.node_to_inames.lookup node.nid = some fis →
       (∀ i ∈ fis, registeredIndex ctx i) →
       fis.length < fuel →
       ∃ subs, rec_gem (fuel + 2) node ctx
         = .ok (if fis.isEmpty then .var vn else .subscript (.var vn) subs, ctx)) ∧
    (∀ (fuel : Nat) (node : Gem) (ctx : Ctx) (result : PExpr) (ctx1 : Ctx),
       1 < assocGetD ctx.expr_use_count node.nid →
       is_cse_eligible node = true →
       ctx.node_to_var_name.lookup node.nid = none →
       expr_to_loopy (fuel + 1) node ctx = .ok (result, ctx1) →
       (∀ i ∈ node.fids, registeredIndex ctx1 i) →
       node.fids.length < fuel →
       ∃ free_inames subs,
         inamesList node.fids
             { ctx1 with
               used_names := uniqueName ctx1.used_names "cse" :: ctx1.used_names,
               cse_names := ctx1.cse_names ++ [uniqueName ctx1.used_names "cse"],
               node_to_var_name := ctx1.node_to_var_name
                 ++ [(node.nid, uniqueName ctx1.used_names "cse")] }
           = .ok (free_inames,
             { ctx1 with
               used_names := uniqueName ctx1.used_names "cse" :: ctx1.used_names,
               cse_names := ctx1.cse_names ++ [uniqueName ctx1.used_names "cse"],
               node_to_var_name := ctx1.node_to_var_name
                 ++ [(node.nid, uniqueName ctx1.used_names "cse")] }) ∧
         rec_gem (fuel + 2) node ctx = .ok
           ((if node.fids.isEmpty then .var (uniqueName ctx1.used_names "cse")
             else .subscript (.var (uniqueName ctx1.used_names "cse")) subs),
            { ctx1 with
              used_names := uniqueName ctx1.used_names "cse" :: ctx1.used_names,
              cse_names := ctx1.cse_names ++ [uniqueName ctx1.used_names "cse"],
              node_to_var_name := ctx1.node_to_var_name
                ++ [(node.nid, uniqueName ctx1.used_names "cse")],
              node_to_inames := ctx1.node_to_inames ++ [(node.nid, node.fids)],
              assignments := ctx1.assignments
                ++ [(uniqueName ctx1.used_names "cse", free_inames, result)] }) ∧
         uniqueName ctx1.used_names "cse" ∉ ctx1.used_names ∧
         ((∀ a ∈ ctx1.assignments, a.1 ∈ ctx1.used_names) →
           ((ctx1.assignments
               ++ [(uniqueName ctx1.used_names "cse", free_inames, result)]).filter
             (fun a => a.1 == uniqueName ctx1.used_names "cse")).length = 1)) := by
  constructor
  · intro fuel node ctx vn fis h1 h2 h3 h4 hreg hlen
    simp only [rec_gem]
    rw [if_pos ⟨h1, h2⟩, h3, h4]
    by_cases hemp : fis.isEmpty
    · refine ⟨[], ?_⟩
      simp [cse_reference, hemp]
    · obtain ⟨subs, hsubs⟩ := indexList_registered fis fuel ctx hreg hlen
      refine ⟨subs, ?_⟩
      simp [cse_reference, hemp, hsubs, except_ok_bind]
  · intro fuel node ctx result ctx1 h1 h2 h3 hlow hreg hlen
    have hvn : uniqueName ctx1.used_names "cse" ∉ ctx1.used_names :=
      uniqueName_not_mem ctx1.used_names "cse"
    have hreg3 : ∀ i ∈ node.fids, registeredIndex
        { ctx1 with
          used_names := uniqueName ctx1.used_names "cse" :: ctx1.used_names,
          cse_names := ctx1.cse_names ++ [uniqueName ctx1.used_names "cse"],
          node_to_var_name := ctx1.node_to_var_name
            ++ [(node.nid, uniqueName ctx1.used_names "cse")] } i := by
      intro i hi
      have := hreg i hi
      cases i with
      | index inm count extent => exact this
      | varIndex e => exact this
      | intConst k => exact this
    obtain ⟨ns, hns⟩ := inamesList_registered node.fids _ hreg3
    refine ⟨ns, ?_⟩
    simp only [rec_gem]
    rw [if_pos ⟨h1, h2⟩, h3]
    have hcount : (∀ a ∈ ctx1.assignments, a.1 ∈ ctx1.used_names) →
        ∀ ns2 : List String,
        ((ctx1.assignments
            ++ [(uniqueName ctx1.used_names "cse", ns2, result)]).filter
          (fun a => a.1 == uniqueName ctx1.used_names "cse")).length = 1 := by
      intro hainv ns2
      rw [List.filter_append]
      have h0 : ctx1.assignments.filter
          (fun a => a.1 == uniqueName ctx1.used_names "cse") = [] := by
        rw [List.filter_eq_nil_iff]
        intro a ha
        rw [Bool.not_eq_true, beq_eq_false_iff_ne]
        intro heq
        exact hvn (heq ▸ hainv a ha)
      rw [h0]
      simp
    by_cases hemp : node.fids.isEmpty
    · refine ⟨[], hns, ?_, hvn, fun h => hcount h ns⟩
      rw [hlow, except_ok_bind]
      simp only [Ctx.name_gen]
      rw [hns, except_ok_bind]
      simp [cse_reference, hemp]
    · have hreg5 : ∀ i ∈ node.fids, registeredIndex
          { ctx1 with
            used_names := uniqueName ctx1.used_names "cse" :: ctx1.used_names,
            cse_names := ctx1.cse_names ++ [uniqueName ctx1.used_names "cse"],
            node_to_var_name := ctx1.node_to_var_name
              ++ [(node.nid, uniqueName ctx1.used_names "cse")],
            node_to_inames := ctx1.node_to_inames ++ [(node.nid, node.fids)],
            assignments := ctx1.assignments
              ++ [(uniqueName ctx1.used_names "cse", ns, result)] } i := by
        intro i hi
        have := hreg i hi
        cases i with
        | index inm count extent => exact this
        | varIndex e => exact this
        | intConst k => exact this
      obtain ⟨subs, hsubs⟩ := indexList_registered node.fids fuel _ hreg5 hlen
      refine ⟨subs, hns, ?_, hvn, fun h => hcount h ns⟩
      rw [hlow, except_ok_bind]
      simp only [Ctx.name_gen]
      rw [hns, except_ok_bind]
      simp [cse_reference, hemp, hsubs, except_ok_bind]

theorem cse_memoization_witness :
    (∃ subs, rec_gem 3 (Gem.mk 0 [] (.var "u" []))
        { Ctx.init [(0, 2)] with
          used_names := ["cse", "u"],
          var_to_name_and_shape := [(0, "u", [])],
          node_to_var_name := [(0, "cse")],
          node_to_inames := [(0, [])] }
      = .ok (if ([] : List GIndex).isEmpty then PExpr.var "cse"
             else PExpr.subscript (.var "cse") subs,
             { Ctx.init [(0, 2)] with
               used_names := ["cse", "u"],
               var_to_name_and_shape := [(0, "u", [])],
               node_to_var_name := [(0, "cse")],
               node_to_inames := [(0, [])] })) ∧
    (∃ (free_inames : List String) (subs : List PExpr),
      inamesList ([] : List GIndex)
          { Ctx.init [(0, 2)] with
            used_names := ["cse", "u"],
            var_to_name_and_shape := [(0, "u", [])],
            cse_names := ["cse"],
            node_to_var_name := [(0, "cse")] }
        = .ok (free_inames,
          { Ctx.init [(0, 2)] with
            used_names := ["cse", "u"],
            var_to_name_and_shape := [(0, "u", [])],
            cse_names := ["cse"],
            node_to_var_name := [(0, "cse")] }) ∧
      rec_gem 3 (Gem.mk 0 [] (.var "u" [])) (Ctx.init [(0, 2)]) = .ok
        ((if ([] : List GIndex).isEmpty then PExpr.var "cse"
          else PExpr.subscript (.var "cse") subs),
         { Ctx.init [(0, 2)] with
           used_names := ["cse", "u"],
           var_to_name_and_shape := [(0, "u", [])],
           cse_names := ["cse"],
           node_to_var_name := [(0, "cse")],
           node_to_inames := [(0, [])],
           assignments := [("cse", free_inames, PExpr.var "u")] }) ∧
      "cse" ∉ ["u"] ∧
      ((∀ a ∈ ([] : List (String × List String × PExpr)), a.1 ∈ ["u"]) →
        ((([] : List (String × List String × PExpr))
            ++ [("cse", free_inames, PExpr.var "u")]).filter
          (fun a => a.1 == "cse")).length = 1)) := by
  constructor
  · exact cse_memoization.1 1 (Gem.mk 0 [] (.var "u" [])) _ "cse" []
      (by decide) rfl rfl rfl (by intro i hi; cases hi) (by decide)
  · exact cse_memoization.2 1 (Gem.mk 0 [] (.var "u" [])) (Ctx.init [(0, 2)])
      (.var "u")
      { Ctx.init [(0, 2)] with
        used_names := ["u"],
        var_to_name_and_shape := [(0, "u", [])] }
      (by decide) rfl rfl rfl (by intro i hi; cases hi) (by decide)
